import Mathlib

/-!
Shallow embedding of the Raft consensus core in `src/raft/mod.rs` of the
kv-service repository.  Pure data is translated directly; the mutex-guarded
handler bodies become pure state-transition functions; Rust panics (index out
of bounds, usize underflow) are modelled by `Option`, with `none` marking a
panic; signals sent on the election-timer channel and spawned commit tasks are
returned as explicit fields of the result records.
-/

set_option linter.unusedVariables false

namespace KvRaft

/-- Source `pub enum State`: the three Raft roles. -/
inductive State where
  | Follower
  | Candidate
  | Leader
deriving DecidableEq, Repr

/-- Log entry `{ term: u64, command: Vec<u8> }`. -/
structure LogEntry where
  term : Nat
  command : List Nat
deriving DecidableEq, Repr

/-- Apply-channel message `{ valid, index, term, command }`. -/
structure ApplyMsg where
  valid : Bool
  index : Nat
  term : Nat
  command : List Nat
deriving DecidableEq, Repr

/-- Arguments of the RequestVote RPC. -/
structure RequestVoteArgs where
  term : Nat
  candidate_id : Int
  last_log_index : Nat
  last_log_term : Nat
deriving DecidableEq, Repr

/-- Reply of the RequestVote RPC. -/
structure RequestVoteReply where
  term : Nat
  vote_granted : Bool
deriving DecidableEq, Repr

/-- Arguments of the AppendEntries RPC. -/
structure AppendEntriesArgs where
  term : Nat
  leader_id : Int
  prev_log_index : Nat
  prev_log_term : Nat
  entries : List LogEntry
  leader_commit : Nat
deriving DecidableEq, Repr

/-- Reply of the AppendEntries RPC; `first_index` is the leader back-off hint. -/
structure AppendEntriesReply where
  term : Nat
  success : Bool
  first_index : Nat
deriving DecidableEq, Repr

/-- The mutex-protected node state of `struct Raft`.  The peer-client vector
is abstracted to its length `npeers` (= `peers.len()`); channel handles are
dropped and their traffic is reported in the handler results instead. -/
structure Raft where
  me : Nat
  npeers : Nat
  state : State
  current_term : Nat
  vote_for : Int
  commit_index : Nat
  log : List LogEntry
  next_index : List Nat
  match_index : List Nat
  voted_cnt : Nat
deriving DecidableEq, Repr

/-- Term of `rf.log[i]`, with the sentinel default; every use in the embedding is
guarded so that out-of-bounds accesses of the Rust code are modelled as `none`
before `termAt` is consulted. -/
def termAt (log : List LogEntry) (i : Nat) : Nat :=
  (log.getD i ⟨0, []⟩).term

/-- Source `fn last_index(&self) -> usize { self.log.len() - 1 }`. -/
def Raft.lastIndex (rf : Raft) : Nat :=
  rf.log.length - 1

/-- Result of an inbound `RequestVote`: the new node state, the reply, and
whether a reset signal was sent on the election-timer channel. -/
structure RVResult where
  raft : Raft
  reply : RequestVoteReply
  timer_reset : Bool
deriving DecidableEq, Repr

/-- The `up_to_date` computation of `Raft::request_vote`, kept exactly as in
the source, including the duplicated `<` condition in the second arm. -/
def up_to_date_check (rf : Raft) (args : RequestVoteArgs) : Bool :=
  if termAt rf.log rf.lastIndex < args.last_log_term then true
  else if termAt rf.log rf.lastIndex < args.last_log_term then false
  else decide (args.last_log_index ≥ rf.lastIndex)

/-- Handler `Raft::request_vote`.  `none` models the panic on an empty log
(`self.log.len() - 1` underflows); the log always holds the sentinel, so this
case is unreachable in the running system. -/
def request_vote (rf : Raft) (args : RequestVoteArgs) : Option RVResult :=
  if args.term < rf.current_term then
    some ⟨rf, ⟨rf.current_term, false⟩, false⟩
  else if rf.log.length = 0 then none
  else if up_to_date_check rf args = false then
    some ⟨rf, ⟨rf.current_term, false⟩, false⟩
  else
    let ct := if rf.current_term < args.term then args.term else rf.current_term
    let vf : Int := if rf.current_term < args.term then -1 else rf.vote_for
    if vf = -1 then
      some ⟨{ rf with current_term := ct, vote_for := args.candidate_id,
                      state := State.Follower },
            ⟨ct, true⟩, true⟩
    else
      some ⟨{ rf with current_term := ct }, ⟨ct, false⟩, false⟩

/-- Result of an inbound `AppendEntries`: new state, reply, whether the
election timer was reset, and the target index of the spawned
`commit_to_index` task (if one was spawned). -/
structure AEResult where
  raft : Raft
  reply : AppendEntriesReply
  timer_reset : Bool
  commit_target : Option Nat
deriving DecidableEq, Repr

/-- The backward walk of `Raft::append_entries`:
`while term == rf.log[index-1].term && index > 1 { index -= 1 }`.
Starting the walk at `index = 0` evaluates `rf.log[index-1]` with a usize
underflow — a panic, modelled as `none`.  For `index ≥ 1` the walk terminates
at the first slot of the conflicting term. -/
def conflictWalk (log : List LogEntry) (t : Nat) : Nat → Option Nat
  | 0 => none
  | 1 => some 1
  | i + 2 => if t = termAt log (i + 1) then conflictWalk log t (i + 1) else some (i + 2)

/-- Handler `Raft::append_entries`.  `none` models a panic. -/
def append_entries (rf : Raft) (args : AppendEntriesArgs) : Option AEResult :=
  if args.term < rf.current_term then
    some ⟨rf, ⟨rf.current_term, false, args.prev_log_index + 1⟩, false, none⟩
  else
    let ct := if rf.current_term < args.term then args.term else rf.current_term
    if h : args.prev_log_index < rf.log.length ∧
           termAt rf.log args.prev_log_index = args.prev_log_term then
      let last := args.prev_log_index + args.entries.length
      let newLog :=
        if args.entries.isEmpty then rf.log
        else rf.log.take (args.prev_log_index + 1) ++ args.entries
      let target :=
        if rf.commit_index < args.leader_commit ∧
           rf.commit_index < min args.leader_commit last then
          some (min args.leader_commit last)
        else none
      some ⟨{ rf with current_term := ct, state := State.Follower, log := newLog },
            ⟨ct, true, args.prev_log_index + 1⟩, true, target⟩
    else
      if args.prev_log_index < rf.log.length then
        match conflictWalk rf.log (termAt rf.log args.prev_log_index) args.prev_log_index with
        | none => none
        | some idx =>
          some ⟨{ rf with current_term := ct, state := State.Follower },
                ⟨ct, false, idx⟩, true, none⟩
      else
        some ⟨{ rf with current_term := ct, state := State.Follower },
              ⟨ct, false, rf.log.length⟩, true, none⟩

/-- Result of processing one `RequestVote` reply inside `Raft::campaign`:
new state, whether the election timer was reset, and whether the heartbeat
task was started (leader promotion). -/
structure VoteStep where
  raft : Raft
  timer_reset : Bool
  started_heartbeat : Bool
deriving DecidableEq, Repr

/-- The reply-processing closure of `Raft::campaign` (source lines 304–340),
executed under the lock when a `RequestVote` reply arrives. -/
def campaign_handle_reply (rf : Raft) (reply : RequestVoteReply) : VoteStep :=
  match rf.state with
  | State.Candidate =>
    if reply.vote_granted = true ∧ reply.term = rf.current_term then
      let cnt := rf.voted_cnt + 1
      if cnt = rf.npeers / 2 then
        ⟨{ rf with voted_cnt := cnt, state := State.Leader,
                   next_index := List.replicate rf.npeers rf.log.length,
                   match_index := (List.replicate rf.npeers 0).set rf.me (rf.log.length - 1) },
         false, true⟩
      else
        ⟨{ rf with voted_cnt := cnt }, false, false⟩
    else
      if rf.current_term < reply.term then
        ⟨{ rf with state := State.Follower, current_term := reply.term }, true, false⟩
      else
        ⟨rf, false, false⟩
  | _ => ⟨rf, false, false⟩

/-- Snapshot `std::cmp::min(rf.next_index[i]-1, rf.last_index())` of `tick_heartbeat`. -/
def pre_index_of (rf : Raft) (i : Nat) : Nat :=
  min (rf.next_index.getD i 0 - 1) rf.lastIndex

/-- The window of at most 10 entries starting at `next_index[i]` assembled by
`tick_heartbeat` (`while next < rf.log.len() && cnt < 10`). -/
def entriesFor (rf : Raft) (i : Nat) : List LogEntry :=
  (rf.log.drop (rf.next_index.getD i 0)).take 10

/-- The `AppendEntriesArgs` snapshot assembled by `tick_heartbeat` for peer
`i`. -/
def sendArgs (rf : Raft) (i : Nat) : AppendEntriesArgs :=
  ⟨rf.current_term, (rf.me : Int), pre_index_of rf i,
   termAt rf.log (pre_index_of rf i), entriesFor rf i, rf.commit_index⟩

/-- The reply-processing closure of `tick_heartbeat` (source lines 420–438):
`pre` and `num` are the `pre_index` and `args.entries.len()` captured by the
per-peer task at send time. -/
def handle_append_reply (rf : Raft) (i : Nat) (pre num : Nat)
    (reply : AppendEntriesReply) : Raft :=
  match rf.state with
  | State.Leader =>
    if reply.success then
      { rf with match_index := rf.match_index.set i (pre + num),
                next_index := rf.next_index.set i (rf.next_index.getD i 0 + num) }
    else
      if rf.current_term < reply.term then
        { rf with state := State.Follower, current_term := reply.term }
      else
        { rf with next_index := rf.next_index.set i reply.first_index }
  | _ => rf

/-- The per-peer index bounds stated by the spec for a leader:
`next_index[p] ∈ [1, len(log)]` and `match_index[p] ∈ [0, len(log)-1]`. -/
def LeaderIndexBounds (rf : Raft) : Prop :=
  (∀ p, p < rf.next_index.length →
     1 ≤ rf.next_index.getD p 0 ∧ rf.next_index.getD p 0 ≤ rf.log.length) ∧
  (∀ p, p < rf.match_index.length →
     rf.match_index.getD p 0 ≤ rf.log.length - 1)

instance (rf : Raft) : Decidable (LeaderIndexBounds rf) := by
  unfold LeaderIndexBounds; infer_instance

/-- Insertion into an ascending list (helper for `sortAsc`). -/
def insertSorted (x : Nat) : List Nat → List Nat
  | [] => [x]
  | y :: ys => if x ≤ y then x :: y :: ys else y :: insertSorted x ys

/-- The ascending sort `match_state.sort()` used by `Raft::leader_commit`.
On `Nat` the ascending reordering of a list is unique, so insertion sort
computes exactly the sorted vector of the source. -/
def sortAsc (l : List Nat) : List Nat :=
  l.foldr insertSorted []

/-- Majority slot `match_state[match_state.len()/2]` of `Raft::leader_commit`. -/
def majorityOf (rf : Raft) : Nat :=
  let ms := sortAsc rf.match_index
  ms.getD (ms.length / 2) 0

/-- Function `Raft::leader_commit`.  The outer `Option` models panics (indexing an
empty `match_index`, or `rf.log[majority]` out of bounds); the inner
`Option Nat` is the target handed to the spawned `commit_to_index` task,
`none` when no commit is scheduled. -/
def leader_commit (rf : Raft) : Option (Option Nat) :=
  match rf.state with
  | State.Leader =>
    if rf.match_index.length = 0 then none
    else if majorityOf rf < rf.log.length then
      some (if termAt rf.log (majorityOf rf) = rf.current_term ∧
               rf.commit_index < majorityOf rf
            then some (majorityOf rf) else none)
    else none
  | _ => some none

/-- The `ApplyMsg` sent by `commit_to_index` for log slot `i`. -/
def applyMsgAt (log : List LogEntry) (i : Nat) : ApplyMsg :=
  ⟨true, i, termAt log i, (log.getD i ⟨0, []⟩).command⟩

/-- The loop body of `Raft::commit_to_index`:
`for i in rf.commit_index+1..index+1 { if i < rf.log.len() { ... } }`,
with `ci` the running `commit_index`, `i` the loop variable and `k` the
number of remaining iterations. -/
def commitGo (log : List LogEntry) (ci : Nat) (i : Nat) : Nat → Nat × List ApplyMsg
  | 0 => (ci, [])
  | k + 1 =>
    if i < log.length then
      let rest := commitGo log i (i + 1) k
      (rest.1, applyMsgAt log i :: rest.2)
    else
      commitGo log ci (i + 1) k

/-- Function `Raft::commit_to_index`: returns the updated node state and the sequence
of `ApplyMsg` values sent on the apply channel, in emission order. -/
def commit_to_index (rf : Raft) (index : Nat) : Raft × List ApplyMsg :=
  if rf.commit_index < index then
    let r := commitGo rf.log rf.commit_index (rf.commit_index + 1) (index - rf.commit_index)
    ({ rf with commit_index := r.1 }, r.2)
  else (rf, [])

/-- A sequence of `commit_to_index` runs with the given targets; the message
lists are concatenated in execution order. -/
def commitRuns (rf : Raft) : List Nat → Raft × List ApplyMsg
  | [] => (rf, [])
  | t :: ts =>
    let r := commit_to_index rf t
    let rest := commitRuns r.1 ts
    (rest.1, r.2 ++ rest.2)

/-! Concrete node states and RPC arguments used to instantiate the theorems
below.  All values are small hand-built configurations of the embedded
`Raft` record. -/

def nodeStaleGrant : Raft := ⟨0, 3, State.Follower, 2, -1, 0, [⟨0, []⟩, ⟨2, []⟩], [], [], 0⟩

def argsStaleGrant : RequestVoteArgs := ⟨2, 1, 1, 1⟩

def nodeHighTerm : Raft := ⟨0, 3, State.Follower, 1, -1, 0, [⟨0, []⟩, ⟨1, []⟩], [], [], 0⟩

def argsHighTerm : RequestVoteArgs := ⟨5, 1, 0, 0⟩

def nodeGrantW : Raft := ⟨0, 3, State.Follower, 1, -1, 0, [⟨0, []⟩], [], [], 0⟩

def argsGrantW : RequestVoteArgs := ⟨2, 1, 0, 0⟩

def nodeHb : Raft := ⟨0, 3, State.Follower, 1, -1, 0, [⟨0, []⟩, ⟨1, []⟩, ⟨1, []⟩], [], [], 0⟩

def argsHb : AppendEntriesArgs := ⟨1, 1, 1, 1, [], 0⟩

def argsAppendW : AppendEntriesArgs := ⟨2, 0, 1, 1, [⟨2, [9]⟩], 2⟩

def nodeZeroPrev : Raft := ⟨0, 3, State.Follower, 0, -1, 0, [⟨0, []⟩], [], [], 0⟩

def argsZeroPrev : AppendEntriesArgs := ⟨0, 1, 0, 1, [], 0⟩

def nodeConflict : Raft :=
  ⟨0, 3, State.Follower, 2, -1, 0,
   [⟨0, []⟩, ⟨1, []⟩, ⟨1, []⟩, ⟨2, []⟩, ⟨2, []⟩, ⟨2, []⟩], [], [], 0⟩

def argsConflict : AppendEntriesArgs := ⟨3, 1, 5, 3, [], 0⟩

def resConflict : AEResult :=
  ⟨{ nodeConflict with current_term := 3, state := State.Follower }, ⟨3, false, 3⟩, true, none⟩

def nodeUnderflow : Raft := ⟨0, 3, State.Follower, 1, -1, 0, [⟨0, []⟩, ⟨1, []⟩], [], [], 0⟩

def argsUnderflow : AppendEntriesArgs := ⟨1, 0, 0, 2, [], 0⟩

def nodeStaleAE : Raft := ⟨0, 3, State.Follower, 1, -1, 0, [⟨0, []⟩], [], [], 0⟩

def argsStaleAE : AppendEntriesArgs := ⟨0, 1, 2, 0, [], 0⟩

def nodeCand : Raft := ⟨0, 3, State.Candidate, 1, 0, 0, [⟨0, []⟩], [0, 0, 0], [0, 0, 0], 0⟩

def replyCand : RequestVoteReply := ⟨1, true⟩

def nodeLdr : Raft := ⟨0, 3, State.Leader, 3, 0, 0, [⟨0, []⟩, ⟨3, []⟩], [2, 2, 2], [1, 1, 1], 1⟩

def nodeCommitW : Raft :=
  ⟨0, 3, State.Follower, 1, -1, 0, [⟨0, []⟩, ⟨1, [1]⟩, ⟨1, [2]⟩, ⟨1, [3]⟩], [], [], 0⟩

def nodeLeaderHB : Raft := ⟨0, 2, State.Leader, 1, 0, 0, [⟨0, []⟩, ⟨1, [7]⟩], [2, 1], [1, 0], 1⟩

def nodeFollowerHB : Raft := ⟨1, 2, State.Follower, 1, -1, 0, [⟨0, []⟩], [], [], 0⟩

def resHB : AEResult :=
  ⟨⟨1, 2, State.Follower, 1, -1, 0, [⟨0, []⟩, ⟨1, [7]⟩], [], [], 0⟩, ⟨1, true, 1⟩, true, none⟩

def logFive : List LogEntry := [⟨0, []⟩, ⟨1, [1]⟩, ⟨1, [2]⟩, ⟨1, [3]⟩, ⟨1, [4]⟩]

def nodeLdrSnd : Raft := ⟨0, 2, State.Leader, 1, 0, 0, logFive, [5, 1], [4, 0], 1⟩

def resSnd : AEResult :=
  ⟨⟨1, 2, State.Follower, 1, -1, 0, logFive, [], [], 0⟩, ⟨1, true, 1⟩, true, none⟩

def nodeLdrMid : Raft := ⟨0, 2, State.Leader, 1, 0, 0, logFive, [5, 5], [4, 4], 1⟩

def nodeLdrBad : Raft := ⟨0, 2, State.Leader, 1, 0, 0, logFive, [5, 9], [4, 4], 1⟩

/-! Theorems. -/

/-- Claim C1, evaluation of the code at the failing input: a candidate whose
last log term (1) is strictly older than the receiver's last log term (2) is
nevertheless granted the vote, because the source's `up_to_date` computation
repeats the same `<` condition in both arms and so falls through to the
index comparison.  The spec requires the reply `(current_term, false)` here. -/
theorem request_vote_grants_stale_candidate :
    request_vote nodeStaleGrant argsStaleGrant =
      some ⟨{ nodeStaleGrant with vote_for := 1, state := State.Follower }, ⟨2, true⟩, true⟩
    ∧ argsStaleGrant.last_log_term < termAt nodeStaleGrant.log nodeStaleGrant.lastIndex
    ∧ argsStaleGrant.term = nodeStaleGrant.current_term
    ∧ nodeStaleGrant.vote_for = -1 := by decide

/-- Claim C2, counterexample: a RequestVote with `args.term = 5` strictly above
`current_term = 1` whose candidate log fails the up-to-date test leaves the
node state completely unchanged and replies with the old term — the handler
does not apply invariant I1 in this case, contradicting the claim. -/
theorem request_vote_no_adoption_cex :
    nodeHighTerm.current_term < argsHighTerm.term
    ∧ request_vote nodeHighTerm argsHighTerm =
        some ⟨nodeHighTerm, ⟨nodeHighTerm.current_term, false⟩, false⟩
    ∧ nodeHighTerm.current_term ≠ argsHighTerm.term := by decide

/-- Claim C2, amended: on RequestVote with `args.term > current_term` the
handler applies I1 (adopts the term, clears the vote, becomes Follower, and
the reply carries the new term) only when the candidate log passes the
handler's up-to-date test — in which case the vote is then granted, so
`voted_for` ends as `candidate_id`; when the test fails, the state is
unchanged and the reply carries the old `current_term`. -/
theorem request_vote_adoption_spec (rf : Raft) (args : RequestVoteArgs)
    (hlog : rf.log.length ≠ 0) (h : rf.current_term < args.term) :
    (up_to_date_check rf args = true →
      request_vote rf args =
        some ⟨{ rf with current_term := args.term, vote_for := args.candidate_id,
                        state := State.Follower },
              ⟨args.term, true⟩, true⟩)
    ∧ (up_to_date_check rf args = false →
      request_vote rf args = some ⟨rf, ⟨rf.current_term, false⟩, false⟩) := by
  have hnl : ¬ args.term < rf.current_term := by omega
  constructor <;> intro hu <;> unfold request_vote <;>
    simp [hnl, hlog, hu, h]

/-- Witness for `request_vote_adoption_spec` at a concrete input. -/
theorem request_vote_adoption_witness :
    nodeGrantW.current_term < argsGrantW.term
    ∧ request_vote nodeGrantW argsGrantW =
        some ⟨{ nodeGrantW with current_term := argsGrantW.term,
                                vote_for := argsGrantW.candidate_id,
                                state := State.Follower },
              ⟨argsGrantW.term, true⟩, true⟩ :=
  ⟨by decide,
   (request_vote_adoption_spec nodeGrantW argsGrantW (by decide) (by decide)).1 (by decide)⟩

/-- Claim C5: an AppendEntries whose term is below `current_term` is rejected
with reply `{current_term, false, prev_log_index+1}`; the node state is
completely unchanged, no election-timer reset signal is sent, and no commit
task is scheduled. -/
theorem append_entries_stale_spec (rf : Raft) (args : AppendEntriesArgs)
    (h : args.term < rf.current_term) :
    append_entries rf args =
      some ⟨rf, ⟨rf.current_term, false, args.prev_log_index + 1⟩, false, none⟩ := by
  unfold append_entries
  rw [if_pos h]

/-- Witness for `append_entries_stale_spec` at a concrete input. -/
theorem append_entries_stale_witness :
    argsStaleAE.term < nodeStaleAE.current_term
    ∧ append_entries nodeStaleAE argsStaleAE =
        some ⟨nodeStaleAE, ⟨nodeStaleAE.current_term, false, argsStaleAE.prev_log_index + 1⟩,
              false, none⟩ :=
  ⟨by decide, append_entries_stale_spec nodeStaleAE argsStaleAE (by decide)⟩

/-- Claim C3, counterexample: a successful AppendEntries carrying no entries
(a heartbeat) leaves the follower log untouched — the source truncates only
when `args.entries.len() > 0` — so the log is not `take (prev+1) ++ entries`
as the claim, read as an unconditional truncate-and-append, would require. -/
theorem append_entries_no_truncation_cex :
    nodeHb.current_term ≤ argsHb.term
    ∧ argsHb.prev_log_index < nodeHb.log.length
    ∧ termAt nodeHb.log argsHb.prev_log_index = argsHb.prev_log_term
    ∧ append_entries nodeHb argsHb =
        some ⟨{ nodeHb with state := State.Follower }, ⟨1, true, 2⟩, true, none⟩
    ∧ nodeHb.log ≠ nodeHb.log.take (argsHb.prev_log_index + 1) ++ argsHb.entries := by
  decide

/-- Claim C3, amended: on AppendEntries with `args.term ≥ current_term` and a
successful previous-entry check, the handler replies success with the
(possibly adopted) term; when `args.entries` is nonempty it truncates the log
to `prev_log_index+1` and appends the entries, when empty the log is
unchanged; the internal `last` is `prev_log_index + len(entries)` and the
commit task is scheduled towards `min(leader_commit, last)` exactly when that
exceeds `commit_index`; entries at indices `≤ prev_log_index` are never
modified. -/
theorem append_entries_match_spec (rf : Raft) (args : AppendEntriesArgs)
    (h1 : ¬ args.term < rf.current_term)
    (h2 : args.prev_log_index < rf.log.length)
    (h3 : termAt rf.log args.prev_log_index = args.prev_log_term) :
    append_entries rf args =
      some ⟨{ rf with
              current_term := if rf.current_term < args.term then args.term
                              else rf.current_term,
              state := State.Follower,
              log := if args.entries.isEmpty then rf.log
                     else rf.log.take (args.prev_log_index + 1) ++ args.entries },
            ⟨(if rf.current_term < args.term then args.term else rf.current_term),
             true, args.prev_log_index + 1⟩, true,
            if rf.commit_index < args.leader_commit ∧
               rf.commit_index <
                 min args.leader_commit (args.prev_log_index + args.entries.length)
            then some (min args.leader_commit (args.prev_log_index + args.entries.length))
            else none⟩
    ∧ (∀ j, j ≤ args.prev_log_index →
        (if args.entries.isEmpty then rf.log
         else rf.log.take (args.prev_log_index + 1) ++ args.entries).getD j ⟨0, []⟩ =
        rf.log.getD j ⟨0, []⟩) := by
  constructor
  · unfold append_entries
    rw [if_neg h1, dif_pos ⟨h2, h3⟩]
  · intro j hj
    by_cases he : args.entries.isEmpty = true
    · rw [if_pos he]
    · have hlt : j < (rf.log.take (args.prev_log_index + 1)).length := by
        simp only [List.length_take]
        omega
      rw [if_neg he, List.getD_eq_getElem?_getD, List.getD_eq_getElem?_getD,
          List.getElem?_append_left hlt, List.getElem?_take_of_lt (by omega)]

/-- Witness for `append_entries_match_spec` at a concrete input with one
appended entry. -/
theorem append_entries_match_witness :
    append_entries nodeHb argsAppendW =
      some ⟨{ nodeHb with current_term := 2, state := State.Follower,
                          log := [⟨0, []⟩, ⟨1, []⟩, ⟨2, [9]⟩] },
            ⟨2, true, 2⟩, true, some 2⟩ := by
  have h := (append_entries_match_spec nodeHb argsAppendW
      (by decide) (by decide) (by decide)).1
  exact h

/-- The backward conflict walk terminates with the first slot of the
conflicting term whenever it starts at an index `≥ 1` holding term `t`:
the result `r` satisfies `1 ≤ r ≤ i`, every slot in `[r, i]` has term `t`,
and either `r = 1` or slot `r-1` has a different term. -/
theorem conflictWalk_some (log : List LogEntry) (t : Nat) :
    ∀ i, 1 ≤ i → termAt log i = t →
      ∃ r, conflictWalk log t i = some r ∧ 1 ≤ r ∧ r ≤ i ∧
        (∀ j, r ≤ j → j ≤ i → termAt log j = t) ∧
        (r = 1 ∨ termAt log (r - 1) ≠ t)
  | 0, h, _ => absurd h (by omega)
  | 1, _, ht =>
    ⟨1, rfl, Nat.le_refl 1, Nat.le_refl 1,
     fun j h1 h2 => by
       have hj : j = 1 := by omega
       rw [hj]; exact ht,
     Or.inl rfl⟩
  | n + 2, _, ht => by
    by_cases hc : t = termAt log (n + 1)
    · obtain ⟨r, hw, hr1, hr2, hshare, hmin⟩ :=
        conflictWalk_some log t (n + 1) (by omega) hc.symm
      refine ⟨r, ?_, hr1, by omega, ?_, hmin⟩
      · show conflictWalk log t (n + 2) = some r
        unfold conflictWalk
        rw [if_pos hc]
        exact hw
      · intro j h1 h2
        rcases Nat.lt_or_ge j (n + 2) with hj | hj
        · exact hshare j h1 (by omega)
        · have hj2 : j = n + 2 := by omega
          rw [hj2]; exact ht
    · refine ⟨n + 2, ?_, by omega, Nat.le_refl _, ?_, Or.inr ?_⟩
      · show conflictWalk log t (n + 2) = some (n + 2)
        unfold conflictWalk
        rw [if_neg hc]
      · intro j h1 h2
        have hj : j = n + 2 := by omega
        rw [hj]; exact ht
      · show termAt log (n + 1) ≠ t
        exact fun h => hc h.symm

/-- Claim C4, counterexample: with `args.term ≥ current_term`,
`prev_log_index = 0` in range, and a mismatching `prev_log_term`, the handler
does not produce the claimed reply at all — the backward walk evaluates
`log[index-1]` with `index = 0` (usize underflow), a panic modelled `none`. -/
theorem append_entries_prev_zero_cex :
    nodeZeroPrev.current_term ≤ argsZeroPrev.term
    ∧ argsZeroPrev.prev_log_index = 0
    ∧ argsZeroPrev.prev_log_index < nodeZeroPrev.log.length
    ∧ termAt nodeZeroPrev.log argsZeroPrev.prev_log_index ≠ argsZeroPrev.prev_log_term
    ∧ append_entries nodeZeroPrev argsZeroPrev = none := by decide

/-- Claim C4, amended: on AppendEntries with `args.term ≥ current_term` whose
previous-entry check fails, provided `prev_log_index ≥ 1`: if
`prev_log_index < len(log)` the reply is unsuccessful with `first_index` the
smallest index `i ≥ 1` such that all slots from `i` through `prev_log_index`
share the term of slot `prev_log_index`; if `prev_log_index ≥ len(log)` the
reply is unsuccessful with `first_index = len(log)`.  (At
`prev_log_index = 0` the walk panics, see the counterexample.)  The spec's
concrete scenario — terms `[_,1,1,2,2,2]`, `prev_log_index = 5`,
`prev_log_term = 3` — yields `success = false`, `first_index = 3`. -/
theorem append_entries_conflict_hint :
    (∀ rf args res,
      rf.current_term ≤ args.term →
      (args.prev_log_index < rf.log.length →
        termAt rf.log args.prev_log_index ≠ args.prev_log_term) →
      append_entries rf args = some res →
      ((1 ≤ args.prev_log_index → args.prev_log_index < rf.log.length →
          res.reply.success = false
          ∧ 1 ≤ res.reply.first_index
          ∧ res.reply.first_index ≤ args.prev_log_index
          ∧ (∀ j, res.reply.first_index ≤ j → j ≤ args.prev_log_index →
              termAt rf.log j = termAt rf.log args.prev_log_index)
          ∧ (∀ i, 1 ≤ i →
              (∀ j, i ≤ j → j ≤ args.prev_log_index →
                termAt rf.log j = termAt rf.log args.prev_log_index) →
              res.reply.first_index ≤ i))
       ∧ (rf.log.length ≤ args.prev_log_index →
          res.reply.success = false ∧ res.reply.first_index = rf.log.length)))
    ∧ append_entries nodeConflict argsConflict = some resConflict
    ∧ resConflict.reply.success = false
    ∧ resConflict.reply.first_index = 3 := by
  refine ⟨?_, by decide, by decide, by decide⟩
  intro rf args res hle hmm hres
  have hs : ¬ args.term < rf.current_term := by omega
  have hnm : ¬ (args.prev_log_index < rf.log.length ∧
      termAt rf.log args.prev_log_index = args.prev_log_term) :=
    fun h => hmm h.1 h.2
  unfold append_entries at hres
  rw [if_neg hs, dif_neg hnm] at hres
  constructor
  · intro h1 hlt
    rw [if_pos hlt] at hres
    obtain ⟨r, hw, hr1, hr2, hshare, hminOr⟩ :=
      conflictWalk_some rf.log (termAt rf.log args.prev_log_index)
        args.prev_log_index h1 rfl
    rw [hw] at hres
    injection hres with hres
    subst hres
    refine ⟨rfl, hr1, hr2, hshare, ?_⟩
    intro i hi1 hishare
    show r ≤ i
    rcases hminOr with h | h
    · omega
    · by_contra hlt2
      push_neg at hlt2
      exact h (hishare (r - 1) (by omega) (by omega))
  · intro h2
    rw [if_neg (by omega)] at hres
    injection hres with hres
    subst hres
    exact ⟨rfl, rfl⟩

/-- Witness for the quantified part of `append_entries_conflict_hint` at the
spec's concrete scenario. -/
theorem append_entries_conflict_hint_witness :
    append_entries nodeConflict argsConflict = some resConflict
    ∧ resConflict.reply.success = false
    ∧ 1 ≤ resConflict.reply.first_index
    ∧ resConflict.reply.first_index ≤ argsConflict.prev_log_index := by
  have B := (append_entries_conflict_hint.1 nodeConflict argsConflict resConflict
      (by decide) (by decide) (by decide)).1 (by decide) (by decide)
  exact ⟨by decide, B.1, B.2.1, B.2.2.1⟩

/-- Claim C10, counterexample: the AppendEntries handler is not total — with
`args.term ≥ current_term`, `prev_log_index = 0` and `prev_log_term` not
matching the sentinel term, the backward conflict walk evaluates
`log[index-1]` with `index = 0`, a usize underflow panic (`none`). -/
theorem append_entries_underflow_cex :
    nodeUnderflow.current_term ≤ argsUnderflow.term
    ∧ argsUnderflow.prev_log_index = 0
    ∧ termAt nodeUnderflow.log 0 ≠ argsUnderflow.prev_log_term
    ∧ append_entries nodeUnderflow argsUnderflow = none := by decide

/-- Claim C10, amended: the handler panics exactly when `args.term` is not
below `current_term`, `prev_log_index = 0`, the log is nonempty, and
`prev_log_term` differs from the term of slot 0; on every other argument it
produces a reply with all log accesses in bounds. -/
theorem append_entries_total_iff (rf : Raft) (args : AppendEntriesArgs) :
    append_entries rf args = none ↔
      (rf.current_term ≤ args.term ∧ args.prev_log_index = 0 ∧
       0 < rf.log.length ∧ termAt rf.log 0 ≠ args.prev_log_term) := by
  unfold append_entries
  by_cases hs : args.term < rf.current_term
  · rw [if_pos hs]
    simp only [reduceCtorEq, false_iff]
    rintro ⟨hle, -, -, -⟩
    omega
  · rw [if_neg hs]
    by_cases hm : (args.prev_log_index < rf.log.length ∧
        termAt rf.log args.prev_log_index = args.prev_log_term)
    · rw [dif_pos hm]
      simp only [reduceCtorEq, false_iff]
      rintro ⟨-, hp0, -, hne⟩
      exact hne (hp0 ▸ hm.2)
    · rw [dif_neg hm]
      by_cases hlt : args.prev_log_index < rf.log.length
      · rw [if_pos hlt]
        by_cases hp : args.prev_log_index = 0
        · have hl0 : 0 < rf.log.length := by omega
          have hne : termAt rf.log 0 ≠ args.prev_log_term := by
            intro heq
            exact hm ⟨hlt, by rw [hp]; exact heq⟩
          rw [hp]
          simp only [conflictWalk]
          constructor
          · intro _
            exact ⟨by omega, trivial, hl0, hne⟩
          · intro _
            trivial
        · obtain ⟨r, hw, -, -, -, -⟩ :=
            conflictWalk_some rf.log (termAt rf.log args.prev_log_index)
              args.prev_log_index (by omega) rfl
          rw [hw]
          simp only [reduceCtorEq, false_iff]
          rintro ⟨-, hp0, -, -⟩
          exact hp hp0
      · rw [if_neg hlt]
        simp only [reduceCtorEq, false_iff]
        rintro ⟨-, hp0, hlen, -⟩
        exact hlt (by omega)

/-- Witness for `append_entries_total_iff`, applying it to derive the panic
at the underflow input. -/
theorem append_entries_total_witness :
    append_entries nodeZeroPrev argsZeroPrev = none :=
  (append_entries_total_iff nodeZeroPrev argsZeroPrev).mpr (by decide)

/-- Claim C6: while the node is a Candidate, a RequestVote reply increments
`voted_cnt` exactly when it grants the vote in the current term; the node is
promoted to Leader exactly when the incremented count reaches
`peers.len() / 2`, in which case `next_index[p] := len(log)` and
`match_index[p] := 0` for every peer and then `match_index[me] := last_index`;
a reply processed when the role is no longer Candidate changes nothing. -/
theorem campaign_reply_spec (rf : Raft) (reply : RequestVoteReply) :
    (rf.state ≠ State.Candidate → campaign_handle_reply rf reply = ⟨rf, false, false⟩)
    ∧ ((campaign_handle_reply rf reply).raft.voted_cnt =
        if rf.state = State.Candidate ∧ reply.vote_granted = true ∧
           reply.term = rf.current_term
        then rf.voted_cnt + 1 else rf.voted_cnt)
    ∧ (rf.state = State.Candidate →
        (((campaign_handle_reply rf reply).raft.state = State.Leader) ↔
          (reply.vote_granted = true ∧ reply.term = rf.current_term ∧
           rf.voted_cnt + 1 = rf.npeers / 2)))
    ∧ (rf.state = State.Candidate → reply.vote_granted = true →
        reply.term = rf.current_term → rf.voted_cnt + 1 = rf.npeers / 2 →
        (campaign_handle_reply rf reply).raft.next_index =
          List.replicate rf.npeers rf.log.length
        ∧ (campaign_handle_reply rf reply).raft.match_index =
          (List.replicate rf.npeers 0).set rf.me (rf.log.length - 1)) := by
  refine ⟨?_, ?_, ?_, ?_⟩
  · intro h
    cases hst : rf.state with
    | Follower => simp [campaign_handle_reply, hst]
    | Candidate => exact absurd hst h
    | Leader => simp [campaign_handle_reply, hst]
  · cases hst : rf.state with
    | Follower => simp [campaign_handle_reply, hst]
    | Leader => simp [campaign_handle_reply, hst]
    | Candidate =>
      simp only [campaign_handle_reply, hst]
      by_cases hg : reply.vote_granted = true ∧ reply.term = rf.current_term
      · rw [if_pos hg]
        by_cases hc : rf.voted_cnt + 1 = rf.npeers / 2
        · rw [if_pos hc]
          simp [hg.1, hg.2]
        · rw [if_neg hc]
          simp [hg.1, hg.2]
      · rw [if_neg hg]
        by_cases hT : rf.current_term < reply.term
        · rw [if_pos hT]
          simp only [if_neg hg]
          rw [if_neg (by intro hall; exact hg ⟨hall.2.1, hall.2.2⟩)]
        · rw [if_neg hT]
          rw [if_neg (by intro hall; exact hg ⟨hall.2.1, hall.2.2⟩)]
  · intro hst
    simp only [campaign_handle_reply, hst]
    by_cases hg : reply.vote_granted = true ∧ reply.term = rf.current_term
    · rw [if_pos hg]
      by_cases hc : rf.voted_cnt + 1 = rf.npeers / 2
      · rw [if_pos hc]
        constructor
        · intro _
          exact ⟨hg.1, hg.2, hc⟩
        · intro _
          rfl
      · rw [if_neg hc]
        constructor
        · intro h
          simp at h
        · rintro ⟨-, -, h3⟩
          exact absurd h3 hc
    · rw [if_neg hg]
      by_cases hT : rf.current_term < reply.term
      · rw [if_pos hT]
        constructor
        · intro h
          simp at h
        · rintro ⟨h1, h2, -⟩
          exact absurd ⟨h1, h2⟩ hg
      · rw [if_neg hT]
        constructor
        · intro h
          rw [hst] at h
          exact absurd h (by decide)
        · rintro ⟨h1, h2, -⟩
          exact absurd ⟨h1, h2⟩ hg
  · intro hst hg1 hg2 hc
    simp only [campaign_handle_reply, hst]
    rw [if_pos ⟨hg1, hg2⟩, if_pos hc]
    exact ⟨rfl, rfl⟩

/-- Witness for `campaign_reply_spec`: a Candidate with two remote peers is
promoted to Leader on the first granting reply. -/
theorem campaign_reply_witness :
    nodeCand.state = State.Candidate
    ∧ ((campaign_handle_reply nodeCand replyCand).raft.state = State.Leader) :=
  ⟨by decide,
   ((campaign_reply_spec nodeCand replyCand).2.2.1 (by decide)).mpr (by decide)⟩

/-- Claim C7: the leader commit step schedules a commit only while Leader, only
towards the majority match index (the middle element of the ascending sort of
`match_index`), and only when that slot's term equals `current_term` and
exceeds `commit_index`; when the node is not Leader, or the majority slot's
term differs from `current_term`, no commit is scheduled. -/
theorem leader_commit_spec (rf : Raft) :
    (rf.state ≠ State.Leader → leader_commit rf = some none)
    ∧ (∀ t, leader_commit rf = some (some t) →
        rf.state = State.Leader ∧ t = majorityOf rf ∧
        termAt rf.log t = rf.current_term ∧ rf.commit_index < t)
    ∧ (termAt rf.log (majorityOf rf) ≠ rf.current_term →
        ∀ t, leader_commit rf ≠ some (some t)) := by
  have key : ∀ t, leader_commit rf = some (some t) →
      rf.state = State.Leader ∧ t = majorityOf rf ∧
      termAt rf.log t = rf.current_term ∧ rf.commit_index < t := by
    intro t h
    cases hst : rf.state with
    | Follower => simp [leader_commit, hst] at h
    | Candidate => simp [leader_commit, hst] at h
    | Leader =>
      simp only [leader_commit, hst] at h
      by_cases h0 : rf.match_index.length = 0
      · rw [if_pos h0] at h
        simp at h
      · rw [if_neg h0] at h
        by_cases h1 : majorityOf rf < rf.log.length
        · rw [if_pos h1] at h
          by_cases h2 : termAt rf.log (majorityOf rf) = rf.current_term ∧
              rf.commit_index < majorityOf rf
          · rw [if_pos h2] at h
            injection h with h
            injection h with h
            exact ⟨rfl, h.symm, h ▸ h2.1, h ▸ h2.2⟩
          · rw [if_neg h2] at h
            simp at h
        · rw [if_neg h1] at h
          simp at h
  refine ⟨?_, key, ?_⟩
  · intro h
    cases hst : rf.state with
    | Leader => exact absurd hst h
    | Follower => simp [leader_commit, hst]
    | Candidate => simp [leader_commit, hst]
  · intro hne t h
    obtain ⟨-, h1, h2, -⟩ := key t h
    rw [h1] at h2
    exact hne h2

/-- Witness for `leader_commit_spec`: a Leader with `match_index = [1,1,1]`
and a current-term entry at slot 1 schedules a commit to index 1. -/
theorem leader_commit_witness :
    leader_commit nodeLdr = some (some 1)
    ∧ nodeLdr.state = State.Leader
    ∧ termAt nodeLdr.log 1 = nodeLdr.current_term
    ∧ nodeLdr.commit_index < 1 := by
  have k := (leader_commit_spec nodeLdr).2.1 1 (by decide)
  exact ⟨by decide, k.1, k.2.2.1, k.2.2.2⟩

/-- Closed form of the `commit_to_index` loop body: starting the loop variable
at `i` with `k` iterations left, the final `commit_index` and the emitted
messages are determined by `min (i + k) len`. -/
theorem commitGo_formula (log : List LogEntry) (k : Nat) :
    ∀ i ci, commitGo log ci i k =
      (if min (i + k) log.length ≤ i then ci else min (i + k) log.length - 1,
       (List.range' i (min (i + k) log.length - i)).map (applyMsgAt log)) := by
  induction k with
  | zero =>
    intro i ci
    have h1 : min (i + 0) log.length ≤ i := by omega
    have h2 : min (i + 0) log.length - i = 0 := by omega
    rw [if_pos h1, h2]
    simp [commitGo]
  | succ k ih =>
    intro i ci
    by_cases hi : i < log.length
    · simp only [commitGo]
      rw [if_pos hi, ih (i + 1) i]
      have hA : ¬ min (i + (k + 1)) log.length ≤ i := by omega
      rw [if_neg hA]
      simp only [Prod.mk.injEq]
      refine ⟨?_, ?_⟩
      · by_cases hC : min (i + 1 + k) log.length ≤ i + 1
        · rw [if_pos hC]
          omega
        · rw [if_neg hC]
          omega
      · have hc : min (i + (k + 1)) log.length - i =
            (min (i + 1 + k) log.length - (i + 1)) + 1 := by omega
        rw [hc, List.range'_succ]
        simp
    · simp only [commitGo]
      rw [if_neg hi, ih (i + 1) ci]
      have hA : min (i + 1 + k) log.length ≤ i + 1 := by omega
      have hB : min (i + (k + 1)) log.length ≤ i := by omega
      rw [if_pos hA, if_pos hB]
      have h2 : min (i + 1 + k) log.length - (i + 1) = 0 := by omega
      have h3 : min (i + (k + 1)) log.length - i = 0 := by omega
      rw [h2, h3]
      rfl

/-- Closed form of a full `commit_to_index` run: the commit index advances to
`max(commit_index, min(target, len(log)-1))` and one `ApplyMsg` is emitted per
newly committed slot, in ascending order. -/
theorem commit_to_index_formula (rf : Raft) (t : Nat) :
    commit_to_index rf t =
      ({ rf with commit_index :=
           rf.commit_index + (min t (rf.log.length - 1) - rf.commit_index) },
       (List.range' (rf.commit_index + 1)
          (min t (rf.log.length - 1) - rf.commit_index)).map (applyMsgAt rf.log)) := by
  unfold commit_to_index
  by_cases hc : rf.commit_index < t
  · rw [if_pos hc]
    rw [commitGo_formula rf.log (t - rf.commit_index) (rf.commit_index + 1) rf.commit_index]
    have hfst : (if min (rf.commit_index + 1 + (t - rf.commit_index)) rf.log.length ≤
                    rf.commit_index + 1
                 then rf.commit_index
                 else min (rf.commit_index + 1 + (t - rf.commit_index)) rf.log.length - 1)
        = rf.commit_index + (min t (rf.log.length - 1) - rf.commit_index) := by
      split_ifs with hA
      · omega
      · omega
    have hcount : min (rf.commit_index + 1 + (t - rf.commit_index)) rf.log.length -
          (rf.commit_index + 1)
        = min t (rf.log.length - 1) - rf.commit_index := by omega
    rw [hfst, hcount]
  · rw [if_neg hc]
    have h0 : min t (rf.log.length - 1) - rf.commit_index = 0 := by omega
    rw [h0]
    rfl

/-- The indices of the messages of one committer run form the contiguous
ascending range starting at `commit_index + 1`. -/
theorem commit_run_indices (rf : Raft) (t : Nat) :
    ((commit_to_index rf t).2).map ApplyMsg.index =
      List.range' (rf.commit_index + 1) (min t (rf.log.length - 1) - rf.commit_index) := by
  rw [commit_to_index_formula, List.map_map]
  have hf : (ApplyMsg.index ∘ applyMsgAt rf.log) = id := rfl
  rw [hf, List.map_id]

/-- Across any sequence of committer runs, the commit index is monotone, every
emitted index lies in the half-open interval left behind by the runs so far,
and the full emission sequence is strictly increasing. -/
theorem commitRuns_props (ts : List Nat) :
    ∀ rf : Raft,
      rf.commit_index ≤ (commitRuns rf ts).1.commit_index
      ∧ (∀ m, m ∈ (commitRuns rf ts).2 →
          rf.commit_index < m.index ∧ m.index ≤ (commitRuns rf ts).1.commit_index)
      ∧ List.Pairwise (· < ·) (((commitRuns rf ts).2).map ApplyMsg.index) := by
  induction ts with
  | nil =>
    intro rf
    refine ⟨Nat.le_refl _, ?_, ?_⟩
    · intro m hm
      simp [commitRuns] at hm
    · simp [commitRuns]
  | cons t ts ih =>
    intro rf
    obtain ⟨ih1, ih2, ih3⟩ := ih (commit_to_index rf t).1
    have hr := commit_to_index_formula rf t
    have hfst : (commit_to_index rf t).1.commit_index =
        rf.commit_index + (min t (rf.log.length - 1) - rf.commit_index) := by rw [hr]
    have hsnd : (commit_to_index rf t).2 =
        (List.range' (rf.commit_index + 1)
          (min t (rf.log.length - 1) - rf.commit_index)).map (applyMsgAt rf.log) := by
      rw [hr]
    simp only [commitRuns]
    refine ⟨?_, ?_, ?_⟩
    · have h1 : rf.commit_index ≤ (commit_to_index rf t).1.commit_index := by omega
      exact le_trans h1 ih1
    · intro m hm
      rw [List.mem_append] at hm
      rcases hm with hm | hm
      · rw [hsnd] at hm
        simp only [List.mem_map] at hm
        obtain ⟨j, hj, rfl⟩ := hm
        rw [List.mem_range'_1] at hj
        constructor
        · show rf.commit_index < j
          omega
        · show j ≤ (commitRuns (commit_to_index rf t).1 ts).1.commit_index
          have hj2 : j ≤ (commit_to_index rf t).1.commit_index := by omega
          exact le_trans hj2 ih1
      · have h2 := ih2 m hm
        have h1 : rf.commit_index ≤ (commit_to_index rf t).1.commit_index := by omega
        exact ⟨by omega, h2.2⟩
    · rw [List.map_append, List.pairwise_append]
      refine ⟨?_, ih3, ?_⟩
      · rw [hsnd, List.map_map]
        have hf : (ApplyMsg.index ∘ applyMsgAt rf.log) = id := rfl
        rw [hf, List.map_id]
        exact List.pairwise_lt_range' _ _
      · intro a ha b hb
        rw [hsnd, List.map_map] at ha
        have hf : (ApplyMsg.index ∘ applyMsgAt rf.log) = id := rfl
        rw [hf, List.map_id] at ha
        rw [List.mem_range'_1] at ha
        simp only [List.mem_map] at hb
        obtain ⟨m, hm, rfl⟩ := hb
        have h2 := (ih2 m hm).1
        omega

/-- Claim C8: one committer run with target `t` emits, for each index from
`commit_index+1` through `t` capped at `len(log)-1` in strictly increasing
order, the `ApplyMsg` built from that slot (valid, index, term, command), and
leaves `commit_index` at the last emitted index (unchanged when nothing is
emitted); the commit index never decreases, and across any sequence of runs
the emitted indices are strictly increasing, so no index is emitted twice. -/
theorem commit_to_index_spec (rf : Raft) (t : Nat) :
    commit_to_index rf t =
      ({ rf with commit_index :=
           rf.commit_index + (min t (rf.log.length - 1) - rf.commit_index) },
       (List.range' (rf.commit_index + 1)
          (min t (rf.log.length - 1) - rf.commit_index)).map (applyMsgAt rf.log))
    ∧ rf.commit_index ≤ (commit_to_index rf t).1.commit_index
    ∧ List.Pairwise (· < ·) (((commit_to_index rf t).2).map ApplyMsg.index)
    ∧ (∀ ts, rf.commit_index ≤ (commitRuns rf ts).1.commit_index)
    ∧ (∀ ts, List.Pairwise (· < ·) (((commitRuns rf ts).2).map ApplyMsg.index)) := by
  refine ⟨commit_to_index_formula rf t, ?_, ?_, ?_, ?_⟩
  · rw [commit_to_index_formula rf t]
    show rf.commit_index ≤ rf.commit_index + (min t (rf.log.length - 1) - rf.commit_index)
    omega
  · rw [commit_run_indices]
    exact List.pairwise_lt_range' _ _
  · intro ts
    exact (commitRuns_props ts rf).1
  · intro ts
    exact (commitRuns_props ts rf).2.2

/-- Witness for `commit_to_index_spec` at a concrete follower with a 3-entry
log, committing up to index 2. -/
theorem commit_to_index_spec_witness :
    commit_to_index nodeCommitW 2 =
      ({ nodeCommitW with commit_index := 2 },
       [⟨true, 1, 1, [1]⟩, ⟨true, 2, 1, [2]⟩]) := by
  have h := (commit_to_index_spec nodeCommitW 2).1
  exact h

/-- Reading `getD` at the position written by `set`. -/
theorem getD_set_self (l : List Nat) (i v : Nat) (h : i < l.length) :
    (l.set i v).getD i 0 = v := by
  rw [List.getD_eq_getElem?_getD, List.getElem?_set_self h]
  rfl

/-- Reading `getD` away from the position written by `set`. -/
theorem getD_set_ne (l : List Nat) (i j v : Nat) (h : i ≠ j) :
    (l.set i v).getD j 0 = l.getD j 0 := by
  rw [List.getD_eq_getElem?_getD, List.getD_eq_getElem?_getD, List.getElem?_set_ne h]

/-- The heartbeat window holds `min 10 (len(log) - next_index[i])` entries. -/
theorem entriesFor_length (rf : Raft) (i : Nat) :
    (entriesFor rf i).length = min 10 (rf.log.length - rf.next_index.getD i 0) := by
  simp [entriesFor]

/-- Any reply actually produced by the AppendEntries handler carries a
`first_index` in `[1, prev_log_index + 1]`. -/
theorem append_reply_first_index_bounds (rf : Raft) (args : AppendEntriesArgs)
    (res : AEResult) (hlog : rf.log.length ≠ 0)
    (h : append_entries rf args = some res) :
    1 ≤ res.reply.first_index ∧ res.reply.first_index ≤ args.prev_log_index + 1 := by
  unfold append_entries at h
  by_cases hs : args.term < rf.current_term
  · rw [if_pos hs] at h
    injection h with h
    subst h
    constructor
    · show 1 ≤ args.prev_log_index + 1
      omega
    · show args.prev_log_index + 1 ≤ args.prev_log_index + 1
      exact Nat.le_refl _
  · rw [if_neg hs] at h
    by_cases hm : (args.prev_log_index < rf.log.length ∧
        termAt rf.log args.prev_log_index = args.prev_log_term)
    · rw [dif_pos hm] at h
      injection h with h
      subst h
      constructor
      · show 1 ≤ args.prev_log_index + 1
        omega
      · show args.prev_log_index + 1 ≤ args.prev_log_index + 1
        exact Nat.le_refl _
    · rw [dif_neg hm] at h
      by_cases hlt : args.prev_log_index < rf.log.length
      · rw [if_pos hlt] at h
        by_cases hp : args.prev_log_index = 0
        · rw [hp] at h
          simp [conflictWalk] at h
        · obtain ⟨r, hw, hr1, hr2, -, -⟩ :=
            conflictWalk_some rf.log (termAt rf.log args.prev_log_index)
              args.prev_log_index (by omega) rfl
          rw [hw] at h
          injection h with h
          subst h
          constructor
          · show 1 ≤ r
            exact hr1
          · show r ≤ args.prev_log_index + 1
            omega
      · rw [if_neg hlt] at h
        injection h with h
        subst h
        constructor
        · show 1 ≤ rf.log.length
          omega
        · show rf.log.length ≤ args.prev_log_index + 1
          omega

/-- Claim C9, counterexample: the source captures `pre_index` and
`num_entries` at send time and applies them to whatever state exists at
reply time.  Two identical windows sent from the same state (log length 5,
`next_index[1] = 1`, so the captured snapshot is `pre = 0`, `num = 4`), both
answered successfully by the follower, make the second reply-handling step
execute `next_index[1] := 5 + 4 = 9 > len(log) = 5`: a reply-handling step
leading from a state satisfying the claimed bounds to one violating them, so
the bounds are not preserved by every reply-handling step. -/
theorem leader_index_bounds_stale_snapshot_cex :
    pre_index_of nodeLdrSnd 1 = 0
    ∧ (entriesFor nodeLdrSnd 1).length = 4
    ∧ append_entries nodeFollowerHB (sendArgs nodeLdrSnd 1) = some resSnd
    ∧ resSnd.reply.success = true
    ∧ handle_append_reply nodeLdrSnd 1 0 4 resSnd.reply = nodeLdrMid
    ∧ LeaderIndexBounds nodeLdrMid
    ∧ handle_append_reply nodeLdrMid 1 0 4 resSnd.reply = nodeLdrBad
    ∧ nodeLdrBad.state = State.Leader
    ∧ nodeLdrBad.log.length < nodeLdrBad.next_index.getD 1 0
    ∧ ¬ LeaderIndexBounds nodeLdrBad := by decide

/-- Claim C9, amended: the per-peer bounds `next_index[p] ∈ [1, len(log)]`
and `match_index[p] ∈ [0, len(log)-1]` are established by leader promotion,
and are preserved by an AppendEntries round whose captured snapshot is the
one computed from the state the reply is applied to: the leader snapshots
`pre_index = min(next_index[i]-1, last_index)` and a window of at most 10
entries, the follower's handler produces the reply, and the leader applies
the success update (`match_index[i] := pre+num`, `next_index[i] += num`), the
higher-term step-down, or the back-off `next_index[i] := reply.first_index`.
When a stale snapshot from an earlier send is applied instead, the success
update can push `next_index[p]` above `len(log)` (see the counterexample), so
the preservation is restricted to steps with an up-to-date snapshot. -/
theorem leader_index_bounds_spec :
    (∀ rf reply, rf.log.length ≠ 0 → rf.state = State.Candidate →
      reply.vote_granted = true → reply.term = rf.current_term →
      rf.voted_cnt + 1 = rf.npeers / 2 →
      LeaderIndexBounds ((campaign_handle_reply rf reply).raft))
    ∧ (∀ rfL rfF i res, rfL.log.length ≠ 0 → rfF.log.length ≠ 0 →
      rfL.next_index.length = rfL.match_index.length →
      LeaderIndexBounds rfL →
      append_entries rfF (sendArgs rfL i) = some res →
      LeaderIndexBounds (handle_append_reply rfL i (pre_index_of rfL i)
        (entriesFor rfL i).length res.reply)) := by
  constructor
  · intro rf reply hlog hst hg1 hg2 hc
    simp only [campaign_handle_reply, hst]
    rw [if_pos ⟨hg1, hg2⟩, if_pos hc]
    refine ⟨?_, ?_⟩
    · intro p hp
      simp only [List.length_replicate] at hp
      simp only [List.getD_eq_getElem?_getD, List.getElem?_replicate_of_lt hp,
                 Option.getD_some]
      omega
    · intro p hp
      simp only [List.length_set, List.length_replicate] at hp
      simp only [List.getD_eq_getElem?_getD]
      by_cases hme : rf.me = p
      · subst hme
        rw [List.getElem?_set_self (by simp only [List.length_replicate]; exact hp)]
        simp only [Option.getD_some]
        omega
      · rw [List.getElem?_set_ne hme, List.getElem?_replicate_of_lt hp]
        simp only [Option.getD_some]
        exact Nat.zero_le _
  · intro rfL rfF i res hlogL hlogF hlen hB hres
    have hfi := append_reply_first_index_bounds rfF (sendArgs rfL i) res hlogF hres
    have hfi2 : res.reply.first_index ≤ pre_index_of rfL i + 1 := hfi.2
    have hpre : pre_index_of rfL i ≤ rfL.log.length - 1 := Nat.min_le_right _ _
    cases hst : rfL.state with
    | Follower => simpa [handle_append_reply, hst] using hB
    | Candidate => simpa [handle_append_reply, hst] using hB
    | Leader =>
      simp only [handle_append_reply, hst]
      by_cases hsucc : res.reply.success = true
      · rw [if_pos hsucc]
        unfold LeaderIndexBounds
        dsimp only
        refine ⟨?_, ?_⟩
        · intro p hp
          simp only [List.length_set] at hp
          by_cases hpi : i = p
          · subst hpi
            rw [getD_set_self _ _ _ hp]
            have h1 := (hB.1 i hp).1
            have h2 := (hB.1 i hp).2
            have h3 := entriesFor_length rfL i
            constructor
            · omega
            · omega
          · rw [getD_set_ne _ _ _ _ hpi]
            exact hB.1 p hp
        · intro p hp
          simp only [List.length_set] at hp
          by_cases hpi : i = p
          · subst hpi
            rw [getD_set_self _ _ _ hp]
            have hpnext : i < rfL.next_index.length := by
              rw [hlen]
              exact hp
            have h1 := (hB.1 i hpnext).1
            have h2 := (hB.1 i hpnext).2
            have h3 := entriesFor_length rfL i
            have h4 : pre_index_of rfL i ≤ rfL.next_index.getD i 0 - 1 :=
              Nat.min_le_left _ _
            omega
          · rw [getD_set_ne _ _ _ _ hpi]
            exact hB.2 p hp
      · rw [if_neg hsucc]
        by_cases hT : rfL.current_term < res.reply.term
        · rw [if_pos hT]
          exact hB
        · rw [if_neg hT]
          unfold LeaderIndexBounds
          dsimp only
          refine ⟨?_, ?_⟩
          · intro p hp
            simp only [List.length_set] at hp
            by_cases hpi : i = p
            · subst hpi
              rw [getD_set_self _ _ _ hp]
              exact ⟨hfi.1, by omega⟩
            · rw [getD_set_ne _ _ _ _ hpi]
              exact hB.1 p hp
          · intro p hp
            exact hB.2 p hp

/-- Witness for `leader_index_bounds_spec`: a concrete two-node heartbeat
round whose success update preserves the bounds. -/
theorem leader_index_bounds_witness :
    LeaderIndexBounds (handle_append_reply nodeLeaderHB 1 (pre_index_of nodeLeaderHB 1)
      (entriesFor nodeLeaderHB 1).length resHB.reply) :=
  leader_index_bounds_spec.2 nodeLeaderHB nodeFollowerHB 1 resHB
    (by decide) (by decide) (by decide) (by decide) (by decide)

end KvRaft
